import Mathlib

/-!
# nwg-dock-hyprland: display-row reconciliation and event listener

A shallow embedding of `hell/hypr/nwg-dock-hyprland/main.go`:

* `buildMainBox` (lines 89-228): the pin list and the client list are turned
  into the row of buttons packed into `mainBox`, together with the item count
  and the scaled icon size;
* the event-socket reader goroutine of `main` (lines 681-710), with the
  processing of one chunk (lines 696-708);
* the leave and enter handlers of the dock window with the hide timer
  (lines 582-595).

Go strings are modelled as lists of characters (`Str`), Go `int` as `Int`
with explicit 64-bit two's-complement wrap-around where arithmetic may
overflow, slices as lists, a run-time panic as `none`.
-/

namespace NwgDock

/-! ## Go strings -/

/-- A Go string, as the list of its characters. -/
abbrev Str := List Char

/-- Go `strings.HasPrefix(s, p)`. -/
def hasPrefix : Str → Str → Bool
  | _, [] => true
  | [], _ :: _ => false
  | c :: s, d :: p => c == d && hasPrefix s p

/-- Go `strings.Index(s, sep)`: position of the first occurrence of `sep` in
`s`, `none` for Go's `-1`. -/
def index : Str → Str → Option Nat
  | [], sep => if sep = [] then some 0 else none
  | c :: s, sep =>
    if hasPrefix (c :: s) sep then some 0
    else (index s sep).map (· + 1)

/-- Go `strings.Contains(s, substr)`. -/
def contains (s substr : Str) : Bool := (index s substr).isSome

/-- Go `strings.Cut(s, sep)`: the text before and after the first `sep`, and
whether `sep` was found. -/
def cut (s sep : Str) : Str × Str × Bool :=
  match index s sep with
  | some i => (s.take i, s.drop (i + sep.length), true)
  | none => (s, [], false)

/-- The loop of Go's `genSplit` for a non-empty separator: at most `n` cuts at
successive first occurrences of `sep`. -/
def splitLoop (sep : Str) : Nat → Str → List Str
  | 0, s => [s]
  | n + 1, s =>
    match index s sep with
    | none => [s]
    | some m => s.take m :: splitLoop sep n (s.drop (m + sep.length))

/-- Go `strings.Split(s, sep)` for a non-empty separator `sep`; the number of
cuts is bounded by the length of `s`, which is at least `strings.Count(s, sep)`. -/
def split (s sep : Str) : List Str := splitLoop sep s.length s

/-- Go `unicode.IsSpace`. -/
def isSpace (c : Char) : Bool :=
  c == '\t' || c == '\n' || c == Char.ofNat 0x0B || c == Char.ofNat 0x0C || c == '\r' || c == ' '
    || c == Char.ofNat 0x85 || c == Char.ofNat 0xA0 || c == Char.ofNat 0x1680
    || (0x2000 ≤ c.toNat && c.toNat ≤ 0x200A)
    || c == Char.ofNat 0x2028 || c == Char.ofNat 0x2029 || c == Char.ofNat 0x202F
    || c == Char.ofNat 0x205F || c == Char.ofNat 0x3000

/-- Go `strings.TrimSpace(s)`: leading and trailing white space removed. -/
def trimSpace (s : Str) : Str :=
  ((s.dropWhile isSpace).reverse.dropWhile isSpace).reverse

/-- Go `strconv.Itoa(i)`: the decimal representation of `i`. -/
def itoa (i : Int) : Str :=
  if i < 0 then '-' :: Nat.toDigits 10 i.natAbs else Nat.toDigits 10 i.natAbs

/-- Go's `<` on strings: lexicographic comparison. -/
def strLess : Str → Str → Bool
  | [], [] => false
  | [], _ :: _ => true
  | _ :: _, [] => false
  | a :: s, b :: t =>
    if a.toNat < b.toNat then true
    else if b.toNat < a.toNat then false
    else strLess s t

/-! ## Go integers -/

/-- A value of Go's 64-bit `int` type after wrap-around. -/
def wrap64 (x : Int) : Int := (x + 2 ^ 63) % 2 ^ 64 - 2 ^ 63

/-- Go's `a * b` on `int`. -/
def mulInt (a b : Int) : Int := wrap64 (a * b)

/-- Go's `a / b` on `int` for `b ≠ 0`: the quotient truncated toward zero. -/
def divInt (a b : Int) : Int := wrap64 (Int.tdiv a b)

/-! ## Data model -/

/-- Modelled from the spec: the `workspace` field of a window record, whose
type declaration is not part of `main.go`; `main.go` reads `Workspace.Id` and
`Workspace.Name`. -/
structure Workspace where
  Id : Int
  Name : Str
deriving DecidableEq

/-- Modelled from the spec: the window record `client`
(`address`, `class`, `workspaceId`, `workspaceName`), whose type declaration is
not part of `main.go`; `main.go` reads `Class` and `Workspace`. -/
structure client where
  Address : Str
  Class : Str
  Workspace : Workspace
deriving DecidableEq

/-- Modelled from the spec: the helper `isIn(slice, val)`, not part of
`main.go`: whether `val` is an element of `slice`. -/
def isIn (slice : List Str) (val : Str) : Bool := slice.contains val

/-- Modelled from the spec: the helper `inPinned(id)` (Pin Store
`contains(id)`), not part of `main.go`: whether `id` is one of the pinned
identifiers. -/
def inPinned (pinned : List Str) (id : Str) : Bool := pinned.contains id

/-- Modelled from the spec: the helper `taskInstances(id)` (Pin Store
`instancesOf(id, registry)`), not part of `main.go`: the records of the current
client list whose class matches `id`, in list order. -/
def taskInstances (clients : List client) (id : Str) : List client :=
  clients.filter (fun c => c.Class == id)

/-- Modelled from the spec: the helper `inTasks(id)`, not part of `main.go`:
whether some record of the current client list has class `id`. -/
def inTasks (clients : List client) (id : Str) : Bool :=
  clients.any (fun c => c.Class == id)

/-- A widget packed into `mainBox`. -/
inductive Button where
  /-- The result of `launcherButton()`. -/
  | launcher
  /-- The result of `pinnedButton(pin)`. -/
  | pinned (pin : Str)
  /-- The result of `taskButton(c, instances)`, with the value of the `name`
  property set after packing (`active` or empty) and whether `clientMenu` was
  built for it. -/
  | task (c : client) (instances : List client) (active : Bool) (menu : Bool)
deriving DecidableEq

/-- The application identifier a button stands for (`none` for the launcher). -/
def Button.ident : Button → Option Str
  | .launcher => none
  | .pinned pin => some pin
  | .task c _ _ _ => some c.Class

/-- The window record a task button was built from. -/
def Button.record : Button → Option client
  | .task c _ _ _ => some c
  | _ => none

/-- The command-line flags read by `buildMainBox`. -/
structure Flags where
  autohide : Bool
  imgSize : Int
  launcherCmd : Str
  launcherPos : Str

/-- The global variables read by `buildMainBox`, and whether
`launcherButton()` returns a button. -/
structure Globals where
  ignoredWorkspaces : List Str
  activeClient : client
  hasLauncher : Bool

/-! ## buildMainBox -/

/-- Lines 104-107: the global `pinned` after `loadTextFile(pinnedFile)`
returned `loaded` (`none` for an error). -/
def loadPinned (loaded : Option (List Str)) : List Str :=
  match loaded with
  | some lines => lines
  | none => []

/-- Lines 109-114: the pinned identifiers, without repetition. -/
def allItemsPinned (pinned : List Str) : List Str :=
  pinned.foldl (fun allItems cntPin =>
    if !isIn allItems cntPin then allItems ++ [cntPin] else allItems) []

/-- The comparison function given to `sort.Slice` (lines 117-123). -/
def clientLess (a b : client) : Bool :=
  if a.Workspace.Id ≠ b.Workspace.Id then decide (a.Workspace.Id < b.Workspace.Id)
  else strLess a.Class b.Class

/-- Go `sort.Slice(x, less)`, as the insertion sort Go runs on short slices:
the stable sort by `less`. -/
def sortSlice {α : Type} (less : α → α → Bool) (x : List α) : List α :=
  List.insertionSort (fun a b => less b a = false) x

/-- Go `slices.DeleteFunc(s, del)`: the elements for which `del` is false, in
their order. -/
def deleteFunc {α : Type} (del : α → Bool) : List α → List α
  | [] => []
  | a :: s => if del a then deleteFunc del s else a :: deleteFunc del s

/-- The predicate given to `slices.DeleteFunc` (lines 126-130). -/
def onIgnoredWorkspace (ignoredWorkspaces : List Str) (cl : client) : Bool :=
  let clWorkspace := (cut cl.Workspace.Name [':']).1
  isIn ignoredWorkspaces (itoa cl.Workspace.Id) || isIn ignoredWorkspaces clWorkspace

/-- Lines 117-130: the client list sorted and without the records on ignored
workspaces. -/
def prepareClients (ignoredWorkspaces : List Str) (clients : List client) : List client :=
  deleteFunc (onIgnoredWorkspace ignoredWorkspaces) (sortSlice clientLess clients)

/-- Lines 132-136: the classes of the running clients are added to `allItems`. -/
def allItemsTasks (launcherCmd : Str) (allItems : List Str) (clients : List client) : List Str :=
  clients.foldl (fun allItems cntTask =>
    if !isIn allItems cntTask.Class && !contains launcherCmd cntTask.Class
        && cntTask.Class != [] then
      allItems ++ [cntTask.Class]
    else allItems) allItems

/-- Lines 138-149: the scaled icon size for `n = len(allItems)` items. -/
def scaleIcons (imgSize : Int) (n : Nat) : Int :=
  let divider : Int := if n > 0 then n else 1
  if divInt (mulInt imgSize 6) divider < imgSize then
    let overflow := divInt ((n : Int) - 6) 3
    divInt (mulInt imgSize 6) (6 + overflow)
  else imgSize

/-- The value of the `name` property of a task button (lines 169-173). -/
def isActive (autohide : Bool) (activeClient c : client) : Bool :=
  c.Class == activeClient.Class && !autohide

/-- Lines 158-188: the loop over the pinned identifiers; `alreadyAdded` is the
slice of that name. `none` is the index-out-of-range panic of `instances[0]`. -/
def pinnedLoop (autohide : Bool) (activeClient : client) (clients : List client) :
    List Str → List Str → Option (List Button)
  | [], _ => some []
  | pin :: rest, alreadyAdded =>
    if !inTasks clients pin then
      (pinnedLoop autohide activeClient clients rest alreadyAdded).map
        (fun bs => Button.pinned pin :: bs)
    else
      let instances := taskInstances clients pin
      match instances.head? with
      | none => none
      | some c =>
        if instances.length = 1 then
          (pinnedLoop autohide activeClient clients rest alreadyAdded).map
            (fun bs => Button.task c instances (isActive autohide activeClient c) false :: bs)
        else if !isIn alreadyAdded c.Class then
          (pinnedLoop autohide activeClient clients rest (alreadyAdded ++ [c.Class])).map
            (fun bs => Button.task c instances (isActive autohide activeClient c) true :: bs)
        else pinnedLoop autohide activeClient clients rest alreadyAdded

/-- Lines 190-218: the loop over the running clients; the first list is the
global `clients` the helpers read, the second what is left to iterate. -/
def tasksLoop (autohide : Bool) (activeClient : client) (pinned : List Str)
    (clients : List client) : List client → List Str → List Button
  | [], _ => []
  | t :: rest, alreadyAdded =>
    if !inPinned pinned t.Class && t.Class != [] then
      let instances := taskInstances clients t.Class
      if instances.length = 1 then
        Button.task t instances (isActive autohide activeClient t) false ::
          tasksLoop autohide activeClient pinned clients rest alreadyAdded
      else if !isIn alreadyAdded t.Class then
        Button.task t instances (isActive autohide activeClient t) true ::
          tasksLoop autohide activeClient pinned clients rest (alreadyAdded ++ [t.Class])
      else tasksLoop autohide activeClient pinned clients rest alreadyAdded
    else tasksLoop autohide activeClient pinned clients rest alreadyAdded

/-- The launcher button packed at position `pos` (lines 151-156 and 220-225). -/
def launcherAt (f : Flags) (g : Globals) (pos : Str) : List Button :=
  if f.launcherPos = pos then (if g.hasLauncher then [Button.launcher] else []) else []

/-- What a run of `buildMainBox` leaves behind: the globals `pinned`, `clients`
and `imgSizeScaled`, the local `allItems`, and the children of `mainBox` in
packing order. -/
structure Built where
  pinned : List Str
  clients : List client
  allItems : List Str
  imgSizeScaled : Int
  row : List Button
deriving DecidableEq

/-- The function `buildMainBox` (lines 89-228). `loaded` is the result of
`loadTextFile(pinnedFile)`, `none` when it returns an error; `clients` is the
global client list on entry. -/
def buildMainBox (f : Flags) (g : Globals) (loaded : Option (List Str))
    (clients : List client) : Option Built :=
  let pinned := loadPinned loaded
  let allItems := allItemsPinned pinned
  let clients := prepareClients g.ignoredWorkspaces clients
  let allItems := allItemsTasks f.launcherCmd allItems clients
  let imgSizeScaled := scaleIcons f.imgSize allItems.length
  match pinnedLoop f.autohide g.activeClient clients pinned [] with
  | none => none
  | some pinnedButtons =>
    some {
      pinned := pinned
      clients := clients
      allItems := allItems
      imgSizeScaled := imgSizeScaled
      row := launcherAt f g "start".toList ++ pinnedButtons
        ++ tasksLoop f.autohide g.activeClient pinned clients clients []
        ++ launcherAt f g "end".toList }

/-- The application buttons of a row: every button but the launcher. -/
def appButtons (row : List Button) : List Button :=
  row.filter (fun b => b.ident.isSome)

/-- The identifiers of the application buttons of a row, in order. -/
def rowIdents (row : List Button) : List Str :=
  row.filterMap Button.ident

/-! ## The event-socket reader (lines 696-708) -/

/-- What one pass over the body of the reader loop calls. -/
inductive Effect where
  /-- The call `listClients()`. -/
  | listClients
  /-- The call `refreshMainBox(forceRefresh)`. -/
  | refreshMainBox (forceRefresh : Bool)
  /-- The call `log.Fatalf`, which ends the process. -/
  | fatal
deriving DecidableEq

/-- The event name tested at line 697. -/
def eventName : Str := "activewindowv2".toList

/-- The separator given to `strings.Split` at line 698. -/
def eventMarker : Str := "activewindowv2>>".toList

/-- The delimiter tested at line 699. -/
def delimiter : Str := ">>".toList

/-- Lines 696-708: the processing of one chunk `s` read from the socket.
`listClientsOk` tells whether `listClients()` returns without error. The result
is the calls made, in order, and the value of `lastWinAddr` afterwards; `none`
is the index-out-of-range panic of `strings.Split(...)[1]`. -/
def processChunk (listClientsOk : Bool) (lastWinAddr s : Str) : Option (List Effect × Str) :=
  if contains s eventName then
    match (split s eventMarker)[1]? with
    | none => none
    | some part =>
      let winAddr := trimSpace part
      if winAddr != lastWinAddr && !contains winAddr delimiter then
        if listClientsOk then
          some ([Effect.listClients, Effect.refreshMainBox true], winAddr)
        else
          some ([Effect.listClients, Effect.fatal], lastWinAddr)
      else some ([], lastWinAddr)
  else some ([], lastWinAddr)

/-! ## Notions used in the statements -/

/-- Ascending `(workspaceId, class)` order between two window records. -/
def keyLE (a b : client) : Prop :=
  a.Workspace.Id < b.Workspace.Id ∨
    (a.Workspace.Id = b.Workspace.Id ∧ strLess b.Class a.Class = false)

/-- The part of a workspace name before its first `:`. -/
def namePrefix (name : Str) : Str := name.takeWhile (fun c => c != ':')

/-- An integer written in decimal. -/
def decimal (i : Int) : Str := (toString i).toList

/-- The text of `s` after the first occurrence of `sep` (empty when `sep` does
not occur). -/
def afterFirst (sep s : Str) : Str :=
  match index s sep with
  | some i => s.drop (i + sep.length)
  | none => []

/-- The text of `s` up to the first occurrence of `sep`, or to the end of `s`. -/
def upToNext (sep s : Str) : Str :=
  match index s sep with
  | some i => s.take i
  | none => s

/-- The address an active-window event of the chunk `s` carries: the text
after the first marker up to the next marker or the end of the chunk, without
the white space around it. -/
def extractedAddr (s : Str) : Str :=
  trimSpace (upToNext eventMarker (afterFirst eventMarker s))

/-- A record of class `cl` on workspace `ws`, the workspace named by its
number. -/
def window (addr cl : String) (ws : Nat) : client :=
  { Address := addr.toList, Class := cl.toList,
    Workspace := { Id := ws, Name := Nat.toDigits 10 ws } }

/-- The registry of the spec's scenario A: two firefox windows on workspace 1
and a kitty window on workspace 2. -/
def scenarioRegistry : List client :=
  [window "1" "firefox" 1, window "2" "firefox" 1, window "3" "kitty" 2]

/-- The ghost record of the spec's scenario C. -/
def scenarioGhost : client :=
  { Address := ['4'], Class := [], Workspace := { Id := 1, Name := ['1'] } }

/-- The flags at their defaults, with the launcher command `nwg-drawer` that
`main` detects. -/
def defaultFlags : Flags :=
  { autohide := false, imgSize := 48, launcherCmd := "nwg-drawer".toList,
    launcherPos := "end".toList }

/-- Line 489: the global `ignoredWorkspaces` that `main` builds from the value
of the `-iw` option. -/
def ignoredWorkspacesOf (ignoreWorkspaces : Str) : List Str := split ignoreWorkspaces [',']

/-- The globals when the `-iw` option is left at its default, with focus on
the first window of scenario A. -/
def defaultGlobals : Globals :=
  { ignoredWorkspaces := ignoredWorkspacesOf [], activeClient := window "1" "firefox" 1,
    hasLauncher := true }

/-! ## The event-socket reader goroutine (lines 681-710) -/

/-- Where the reader goroutine stands between two steps. -/
inductive Reader where
  /-- In the `for` loop on the established connection, with the value of the
  global `lastWinAddr`. -/
  | reading (lastWinAddr : Str)
  /-- The process has ended, by `os.Exit(1)` or `log.Fatalf`. -/
  | exited
  /-- The goroutine has panicked. -/
  | panicked
deriving DecidableEq

/-- Lines 682-687: the call `net.DialUnix`; `connectOk` tells whether it
returns without error. -/
def readerConnect (connectOk : Bool) (lastWinAddr : Str) : Reader :=
  if connectOk then Reader.reading lastWinAddr else Reader.exited

/-- The result of `conn.Read(buf)`: the bytes `buf[:n]` as a string, and
whether `err != nil`. -/
structure ReadResult where
  data : Str
  failed : Bool
deriving DecidableEq

/-- What one pass through the reader loop has done: whether the message
`Error reading from socket2:` was printed, the calls made by the processing of
the buffer, and where the goroutine stands afterwards. -/
structure Iteration where
  printed : Bool
  effects : List Effect
  next : Reader
deriving DecidableEq

/-- Lines 690-708: one pass through the reader loop, on the result `r` of
`conn.Read(buf)`. A read error is printed (lines 692-694) and the pass goes on
with `s := string(buf[:n])`. -/
def readerIteration (r : ReadResult) (listClientsOk : Bool) (lastWinAddr : Str) : Iteration :=
  match processChunk listClientsOk lastWinAddr r.data with
  | none => { printed := r.failed, effects := [], next := Reader.panicked }
  | some (effects, lastWinAddr) =>
    { printed := r.failed, effects := effects,
      next := if Effect.fatal ∈ effects then Reader.exited else Reader.reading lastWinAddr }

/-! ## The hide timer of the dock window (lines 582-595) -/

/-- The events of the claim on the dock window: `leave-notify-event`,
`enter-notify-event`, and the expiry of the timeout source `id`. -/
inductive WinEvent where
  | leave
  | enter
  | fire (id : Nat)
deriving DecidableEq

/-- The state the handlers act on: the global `src` (0 when no handle is
kept), the timeout sources scheduled by the leave handler that have neither
fired nor been removed, the id `glib.TimeoutAdd` gives the next source, and
whether the window is shown. -/
structure HideTimers where
  src : Nat
  pending : List Nat
  nextId : Nat
  visible : Bool
deriving DecidableEq

/-- The state when `gtk.Main` starts: no handle kept, no source scheduled by
the leave handler, the window shown. -/
def HideTimers.init : HideTimers :=
  { src := 0, pending := [], nextId := 1, visible := true }

/-- Modelled from the spec: the helper `cancelClose()`, not part of `main.go`:
the pending hide timer, whose handle is the global `src`, is removed and `src`
reset. -/
def cancelClose (s : HideTimers) : HideTimers :=
  if 0 < s.src then { s with src := 0, pending := s.pending.erase s.src } else s

/-- Lines 583-595 and the callback of lines 585-589: the effect of one event.
A source that is not pending does not fire. -/
def winStep (autohide : Bool) (s : HideTimers) : WinEvent → HideTimers
  | WinEvent.leave =>
    if autohide then
      { s with src := s.nextId, pending := s.pending ++ [s.nextId], nextId := s.nextId + 1 }
    else s
  | WinEvent.enter => cancelClose s
  | WinEvent.fire id =>
    if id ∈ s.pending then
      { s with src := 0, pending := s.pending.erase id, visible := false }
    else s

/-- The state after a sequence of events. -/
def winRun (autohide : Bool) (s : HideTimers) (events : List WinEvent) : HideTimers :=
  events.foldl (winStep autohide) s

/-- Whether pointer-leave and pointer-enter alternate in a sequence of events:
no leave follows another leave without an enter in between. `left` tells
whether a leave has occurred since the last enter. -/
def leavesAlternate : Bool → List WinEvent → Bool
  | _, [] => true
  | left, WinEvent.leave :: events => !left && leavesAlternate true events
  | _, WinEvent.enter :: events => leavesAlternate false events
  | left, WinEvent.fire _ :: events => leavesAlternate left events

/-! ## The order used by the sort -/

theorem strLess_asymm : ∀ a b : Str, strLess a b = true → strLess b a = false
  | [], [], h => by simp [strLess] at h
  | [], _ :: _, _ => by simp [strLess]
  | _ :: _, [], h => by simp [strLess] at h
  | a :: s, b :: t, h => by
    simp only [strLess] at h ⊢
    by_cases h1 : a.toNat < b.toNat
    · have h2 : ¬ b.toNat < a.toNat := by omega
      simp [h2, h1]
    · by_cases h2 : b.toNat < a.toNat
      · simp [h1, h2] at h
      · simp only [h1, h2, if_false] at h ⊢
        exact strLess_asymm s t h

theorem strLess_negtrans : ∀ a b c : Str,
    strLess b a = false → strLess c b = false → strLess c a = false
  | [], _, c, _, _ => by cases c <;> simp [strLess]
  | _ :: _, [], _, h1, _ => by simp [strLess] at h1
  | _ :: _, _ :: _, [], _, h2 => by simp [strLess] at h2
  | a :: s, b :: t, c :: u, h1, h2 => by
    simp only [strLess] at h1 h2 ⊢
    by_cases hba : b.toNat < a.toNat
    · simp [hba] at h1
    · by_cases hcb : c.toNat < b.toNat
      · simp [hcb] at h2
      · by_cases hab : a.toNat < b.toNat
        · have h3 : ¬ c.toNat < a.toNat := by omega
          have h4 : a.toNat < c.toNat := by omega
          simp [h3, h4]
        · by_cases hbc : b.toNat < c.toNat
          · have h3 : ¬ c.toNat < a.toNat := by omega
            have h4 : a.toNat < c.toNat := by omega
            simp [h3, h4]
          · have h3 : ¬ c.toNat < a.toNat := by omega
            have h4 : ¬ a.toNat < c.toNat := by omega
            simp only [hba, hab, hcb, hbc, h3, h4, if_false] at h1 h2 ⊢
            exact strLess_negtrans s t u h1 h2

theorem clientLess_iff_keyLE (a b : client) : clientLess b a = false ↔ keyLE a b := by
  unfold clientLess keyLE
  by_cases h : b.Workspace.Id = a.Workspace.Id
  · simp [h]
  · simp only [ne_eq, h, not_false_eq_true, if_true, decide_eq_false_iff_not, not_lt]
    constructor
    · intro h1
      left
      omega
    · rintro (h1 | ⟨h1, _⟩)
      · omega
      · exact absurd h1.symm h

theorem clientLE_total (a b : client) : clientLess b a = false ∨ clientLess a b = false := by
  by_cases h : clientLess b a = true
  · right
    unfold clientLess at h ⊢
    by_cases hid : b.Workspace.Id = a.Workspace.Id
    · simp only [hid, ne_eq, not_true_eq_false, if_false] at h ⊢
      exact strLess_asymm _ _ h
    · have hid2 : ¬ a.Workspace.Id = b.Workspace.Id := fun e => hid e.symm
      simp only [ne_eq, hid, hid2, not_false_eq_true, if_true, decide_eq_true_eq,
        decide_eq_false_iff_not] at h ⊢
      omega
  · left
    simpa using h

theorem clientLE_trans (a b c : client) :
    clientLess b a = false → clientLess c b = false → clientLess c a = false := by
  simp only [clientLess_iff_keyLE]
  unfold keyLE
  rintro (h1 | ⟨h1, h1s⟩) (h2 | ⟨h2, h2s⟩)
  · left; omega
  · left; omega
  · left; omega
  · right
    exact ⟨h1.trans h2, strLess_negtrans _ _ _ h1s h2s⟩

theorem sortSlice_sorted (l : List client) :
    List.Sorted (fun a b => clientLess b a = false) (sortSlice clientLess l) :=
  @List.sorted_insertionSort client (fun a b => clientLess b a = false) _
    ⟨clientLE_total⟩ ⟨fun a b c => clientLE_trans a b c⟩ l

theorem deleteFunc_eq_filter {α : Type} (del : α → Bool) (l : List α) :
    deleteFunc del l = l.filter (fun a => !del a) := by
  induction l with
  | nil => rfl
  | cons a s ih =>
    by_cases h : del a = true <;> simp [deleteFunc, h, ih]

theorem prepareClients_sorted (ig : List Str) (l : List client) :
    List.Sorted (fun a b => clientLess b a = false) (prepareClients ig l) := by
  unfold prepareClients
  rw [deleteFunc_eq_filter]
  exact List.Pairwise.sublist (List.filter_sublist _) (sortSlice_sorted l)

theorem prepareClients_idem (ig : List Str) (l : List client) :
    prepareClients ig (prepareClients ig l) = prepareClients ig l := by
  have hs : sortSlice clientLess (prepareClients ig l) = prepareClients ig l :=
    List.Sorted.insertionSort_eq (prepareClients_sorted ig l)
  conv_lhs => unfold prepareClients
  have hp : deleteFunc (onIgnoredWorkspace ig) (sortSlice clientLess l) = prepareClients ig l := rfl
  rw [hp, hs]
  unfold prepareClients
  simp [deleteFunc_eq_filter, List.filter_filter]

/-! ## The two button loops -/

theorem taskInstances_head_of_inTasks (clients : List client) (pin : Str)
    (h : inTasks clients pin = true) :
    ∃ c, (taskInstances clients pin).head? = some c ∧ c.Class = pin := by
  induction clients with
  | nil => simp [inTasks] at h
  | cons a l ih =>
    by_cases ha : a.Class = pin
    · exact ⟨a, by simp [taskInstances, ha], ha⟩
    · have h2 : inTasks l pin = true := by
        simpa [inTasks, ha] using h
      obtain ⟨c, hc, hcl⟩ := ih h2
      refine ⟨c, ?_, hcl⟩
      simpa [taskInstances, ha] using hc

/-- The pinned loop never panics; its buttons are application buttons whose
identifiers form a subsequence of the pinned identifiers it iterates over. -/
theorem pinnedLoop_spec (autohide : Bool) (activeClient : client) (clients : List client) :
    ∀ (pins alreadyAdded : List Str), ∃ bs,
      pinnedLoop autohide activeClient clients pins alreadyAdded = some bs ∧
      (∀ b ∈ bs, b.ident.isSome = true) ∧ List.Sublist (rowIdents bs) pins := by
  intro pins
  induction pins with
  | nil => intro _; exact ⟨[], rfl, by simp, List.Sublist.refl _⟩
  | cons pin rest ih =>
    intro added
    have key : ∀ (b : Button) (bs : List Button), b.ident = some pin →
        (∀ b ∈ bs, b.ident.isSome = true) → List.Sublist (rowIdents bs) rest →
        (∀ x ∈ b :: bs, x.ident.isSome = true) ∧
          List.Sublist (rowIdents (b :: bs)) (pin :: rest) := by
      intro b bs hb hap hsub
      constructor
      · intro x hx
        rcases List.mem_cons.1 hx with rfl | hx
        · simp [hb]
        · exact hap x hx
      · have : rowIdents (b :: bs) = pin :: rowIdents bs := by
          simp [rowIdents, List.filterMap_cons, hb]
        rw [this]
        exact hsub.cons₂ _
    by_cases ht : inTasks clients pin = true
    · obtain ⟨c, hc, hcl⟩ := taskInstances_head_of_inTasks clients pin ht
      simp only [pinnedLoop, ht, hc, Bool.not_true, Bool.false_eq_true, if_false]
      by_cases h1 : (taskInstances clients pin).length = 1
      · obtain ⟨bs, hbs, hap, hsub⟩ := ih added
        obtain ⟨k1, k2⟩ := key (Button.task c (taskInstances clients pin)
          (isActive autohide activeClient c) false) bs (by simp [Button.ident, hcl]) hap hsub
        exact ⟨_, by simp [h1, hbs], k1, k2⟩
      · by_cases h2 : isIn added c.Class = true
        · obtain ⟨bs, hbs, hap, hsub⟩ := ih added
          exact ⟨bs, by simp [h1, h2, hbs], hap, hsub.cons _⟩
        · obtain ⟨bs, hbs, hap, hsub⟩ := ih (added ++ [c.Class])
          obtain ⟨k1, k2⟩ := key (Button.task c (taskInstances clients pin)
            (isActive autohide activeClient c) true) bs (by simp [Button.ident, hcl]) hap hsub
          exact ⟨_, by simp [h1, h2, hbs], k1, k2⟩
    · obtain ⟨bs, hbs, hap, hsub⟩ := ih added
      obtain ⟨k1, k2⟩ := key (Button.pinned pin) bs rfl hap hsub
      exact ⟨_, by simp [pinnedLoop, ht, hbs], k1, k2⟩

/-- The running loop builds one task button for each record of a subsequence
of the list it iterates over, all of them unpinned and with a class. -/
theorem tasksLoop_spec (autohide : Bool) (activeClient : client) (pinned : List Str)
    (clients : List client) :
    ∀ (rest : List client) (alreadyAdded : List Str), ∃ ts : List client,
      List.Sublist ts rest ∧
      (∀ t ∈ ts, inPinned pinned t.Class = false ∧ t.Class ≠ []) ∧
      List.Forall₂ (fun b t => b.record = some t ∧ b.ident = some t.Class)
        (tasksLoop autohide activeClient pinned clients rest alreadyAdded) ts := by
  intro rest
  induction rest with
  | nil => intro _; exact ⟨[], List.Sublist.refl _, by simp, by simp [tasksLoop]⟩
  | cons t rest ih =>
    intro added
    by_cases hc : (!inPinned pinned t.Class && t.Class != []) = true
    · have hc2 : inPinned pinned t.Class = false ∧ t.Class ≠ [] := by
        simpa using hc
      by_cases h1 : (taskInstances clients t.Class).length = 1
      · obtain ⟨ts, hsub, hall, hf⟩ := ih added
        refine ⟨t :: ts, hsub.cons₂ _, ?_, ?_⟩
        · intro u hu
          rcases List.mem_cons.1 hu with rfl | hu
          · exact hc2
          · exact hall u hu
        · simp only [tasksLoop, hc, h1, if_true]
          exact List.Forall₂.cons ⟨rfl, rfl⟩ hf
      · by_cases h2 : isIn added t.Class = true
        · obtain ⟨ts, hsub, hall, hf⟩ := ih added
          refine ⟨ts, hsub.cons _, hall, ?_⟩
          simpa [tasksLoop, hc2.1, hc2.2, h1, h2] using hf
        · obtain ⟨ts, hsub, hall, hf⟩ := ih (added ++ [t.Class])
          refine ⟨t :: ts, hsub.cons₂ _, ?_, ?_⟩
          · intro u hu
            rcases List.mem_cons.1 hu with rfl | hu
            · exact hc2
            · exact hall u hu
          · have h2f : isIn added t.Class = false := by simpa using h2
            simp only [tasksLoop, hc, h1, h2f, if_true, if_false, Bool.not_false]
            exact List.Forall₂.cons ⟨rfl, rfl⟩ hf
    · obtain ⟨ts, hsub, hall, hf⟩ := ih added
      refine ⟨ts, hsub.cons _, hall, ?_⟩
      have hc' : (!inPinned pinned t.Class && t.Class != []) = false := by simpa using hc
      simp only [tasksLoop, hc', Bool.false_eq_true, if_false]
      exact hf

theorem forall₂_record {R : Button → client → Prop} (hR : ∀ b t, R b t → b.record = some t) :
    ∀ {bs : List Button} {ts : List client}, List.Forall₂ R bs ts →
      bs.filterMap Button.record = ts ∧ ∀ b ∈ bs, ∃ t ∈ ts, R b t := by
  intro bs ts h
  induction h with
  | nil => simp
  | @cons b t bs ts hbt _ ih =>
    obtain ⟨ih1, ih2⟩ := ih
    refine ⟨by simp [List.filterMap_cons, hR b t hbt, ih1], ?_⟩
    intro x hx
    rcases List.mem_cons.1 hx with rfl | hx
    · exact ⟨t, List.mem_cons_self _ _, hbt⟩
    · obtain ⟨u, hu, hxu⟩ := ih2 x hx
      exact ⟨u, List.mem_cons_of_mem _ hu, hxu⟩

theorem appButtons_launcherAt (f : Flags) (g : Globals) (pos : Str) :
    appButtons (launcherAt f g pos) = [] := by
  unfold launcherAt appButtons
  split_ifs <;> simp [Button.ident]

theorem appButtons_row (f : Flags) (g : Globals) (p q : Str) (ps ts : List Button)
    (hps : ∀ b ∈ ps, b.ident.isSome = true) (hts : ∀ b ∈ ts, b.ident.isSome = true) :
    appButtons (launcherAt f g p ++ ps ++ ts ++ launcherAt f g q) = ps ++ ts := by
  have h1 := appButtons_launcherAt f g p
  have h2 := appButtons_launcherAt f g q
  have h3 : appButtons ps = ps := List.filter_eq_self.2 hps
  have h4 : appButtons ts = ts := List.filter_eq_self.2 hts
  unfold appButtons at *
  simp [List.filter_append, h1, h2, h3, h4]

theorem rowIdents_row (f : Flags) (g : Globals) (p q : Str) (ps ts : List Button) :
    rowIdents (launcherAt f g p ++ ps ++ ts ++ launcherAt f g q) = rowIdents ps ++ rowIdents ts := by
  have h : ∀ pos, rowIdents (launcherAt f g pos) = [] := by
    intro pos
    unfold launcherAt rowIdents
    split_ifs <;> simp [Button.ident]
  have h1 := h p
  have h2 := h q
  unfold rowIdents at *
  simp [List.filterMap_append, h1, h2]

/-- The result of `buildMainBox` once the pinned loop has returned `ps`. -/
theorem buildMainBox_eq (f : Flags) (g : Globals) (loaded : Option (List Str))
    (clients : List client) (ps : List Button)
    (h : pinnedLoop f.autohide g.activeClient (prepareClients g.ignoredWorkspaces clients)
      (loadPinned loaded) [] = some ps) :
    buildMainBox f g loaded clients = some {
      pinned := loadPinned loaded
      clients := prepareClients g.ignoredWorkspaces clients
      allItems := allItemsTasks f.launcherCmd (allItemsPinned (loadPinned loaded))
        (prepareClients g.ignoredWorkspaces clients)
      imgSizeScaled := scaleIcons f.imgSize (allItemsTasks f.launcherCmd
        (allItemsPinned (loadPinned loaded)) (prepareClients g.ignoredWorkspaces clients)).length
      row := launcherAt f g "start".toList ++ ps
        ++ tasksLoop f.autohide g.activeClient (loadPinned loaded)
            (prepareClients g.ignoredWorkspaces clients)
            (prepareClients g.ignoredWorkspaces clients) []
        ++ launcherAt f g "end".toList } := by
  simp only [buildMainBox, h]

/-- C1: a pin listed twice in the pin file and not running is packed as two
pin-only buttons with the same identifier, while `allItems` counts it once. -/
theorem buildMainBox_repeated_pin (f : Flags) (g : Globals) (p : Str) :
    (buildMainBox f g (some [p, p]) []).map (fun st => (rowIdents st.row, st.allItems))
      = some ([p, p], [p]) := by
  simp [buildMainBox, prepareClients, sortSlice, deleteFunc, pinnedLoop, inTasks, tasksLoop,
    launcherAt, rowIdents, allItemsPinned, allItemsTasks, isIn, loadPinned]
  split_ifs <;> simp [Button.ident]

/-- C2: the application buttons of the row are the buttons of the pinned
identifiers, in pin-file order, followed by the buttons of the unpinned running
identifiers, whose window records are in ascending (workspaceId, class)
order. -/
theorem buildMainBox_order (f : Flags) (g : Globals) (pins : List Str) (clients : List client) :
    ∃ st ps ts, buildMainBox f g (some pins) clients = some st ∧
      appButtons st.row = ps ++ ts ∧
      (∀ b ∈ ps, ∃ id ∈ pins, b.ident = some id) ∧
      List.Sublist (rowIdents ps) pins ∧
      (∀ b ∈ ts, ∃ t, b.record = some t ∧ b.ident = some t.Class ∧ t.Class ∉ pins) ∧
      List.Pairwise keyLE (ts.filterMap Button.record) := by
  obtain ⟨ps, hps, hsome, hsub⟩ := pinnedLoop_spec f.autohide g.activeClient
    (prepareClients g.ignoredWorkspaces clients) pins []
  obtain ⟨rs, hrsub, hrall, hf⟩ := tasksLoop_spec f.autohide g.activeClient pins
    (prepareClients g.ignoredWorkspaces clients) (prepareClients g.ignoredWorkspaces clients) []
  obtain ⟨hrec, hmem⟩ := forall₂_record (fun b t h => h.1) hf
  have hts : ∀ b ∈ tasksLoop f.autohide g.activeClient pins
      (prepareClients g.ignoredWorkspaces clients) (prepareClients g.ignoredWorkspaces clients) [],
      b.ident.isSome = true := by
    intro b hb
    obtain ⟨t, _, _, hid⟩ := hmem b hb
    simp [hid]
  refine ⟨_, ps, _, buildMainBox_eq f g (some pins) clients ps hps,
    appButtons_row f g _ _ ps _ hsome hts, ?_, hsub, ?_, ?_⟩
  · intro b hb
    have h1 := hsome b hb
    obtain ⟨id, hid⟩ := Option.isSome_iff_exists.1 h1
    refine ⟨id, hsub.subset ?_, hid⟩
    exact List.mem_filterMap.2 ⟨b, hb, hid⟩
  · intro b hb
    obtain ⟨t, ht, hr, hid⟩ := hmem b hb
    refine ⟨t, hr, hid, ?_⟩
    have := (hrall t ht).1
    simpa [inPinned] using this
  · show List.Pairwise keyLE (List.filterMap Button.record (tasksLoop f.autohide g.activeClient
      pins (prepareClients g.ignoredWorkspaces clients)
      (prepareClients g.ignoredWorkspaces clients) []))
    rw [hrec]
    have hsorted := List.Pairwise.sublist hrsub (prepareClients_sorted g.ignoredWorkspaces clients)
    exact hsorted.imp (fun {a b} h => (clientLess_iff_keyLE a b).1 h)

/-! ## A ghost record in the registry -/

theorem orderedInsert_around (x g : client) :
    ∀ (a b : List client), List.Sorted (fun a b => clientLess b a = false) (a ++ g :: b) →
      ∃ a' b', List.orderedInsert (fun a b => clientLess b a = false) x (a ++ g :: b)
          = a' ++ g :: b' ∧
        List.orderedInsert (fun a b => clientLess b a = false) x (a ++ b) = a' ++ b' := by
  intro a
  induction a with
  | nil =>
    intro b hs
    by_cases hxg : clientLess g x = false
    · refine ⟨[x], b, by simp [List.orderedInsert, hxg], ?_⟩
      cases b with
      | nil => simp [List.orderedInsert]
      | cons y b =>
        have hgy : clientLess y g = false := by
          have := List.rel_of_sorted_cons hs y (List.mem_cons_self _ _)
          exact this
        have hxy : clientLess y x = false := clientLE_trans x g y hxg hgy
        simp [List.orderedInsert, hxy]
    · exact ⟨[], List.orderedInsert (fun a b => clientLess b a = false) x b,
        by simp [List.orderedInsert, hxg], by simp⟩
  | cons y a ih =>
    intro b hs
    by_cases hxy : clientLess y x = false
    · exact ⟨x :: y :: a, b, by simp [List.orderedInsert, hxy], by simp [List.orderedInsert, hxy]⟩
    · obtain ⟨a', b', h1, h2⟩ := ih b (List.Sorted.of_cons hs)
      have hxy' : clientLess y x = true := by simpa using hxy
      refine ⟨y :: a', b', ?_, ?_⟩
      · have e : (y :: a) ++ g :: b = y :: (a ++ g :: b) := rfl
        rw [e, List.orderedInsert, if_neg (by simp [hxy']), h1]
        rfl
      · have e : (y :: a) ++ b = y :: (a ++ b) := rfl
        rw [e, List.orderedInsert, if_neg (by simp [hxy']), h2]
        rfl

/-- The stable sort leaves the other records where they are when one record
is added to the list. -/
theorem sortSlice_around (g : client) (l2 : List client) :
    ∀ l1 : List client, ∃ a b, sortSlice clientLess (l1 ++ g :: l2) = a ++ g :: b ∧
      sortSlice clientLess (l1 ++ l2) = a ++ b := by
  intro l1
  induction l1 with
  | nil =>
    refine ⟨(sortSlice clientLess l2).takeWhile (fun b => ¬ clientLess b g = false),
      (sortSlice clientLess l2).dropWhile (fun b => ¬ clientLess b g = false), ?_, ?_⟩
    · show List.orderedInsert _ g (sortSlice clientLess l2) = _
      exact List.orderedInsert_eq_take_drop _ g _
    · simp
  | cons x l1 ih =>
    obtain ⟨a, b, h1, h2⟩ := ih
    have hs : List.Sorted (fun a b => clientLess b a = false) (a ++ g :: b) := by
      rw [← h1]
      exact sortSlice_sorted _
    obtain ⟨a', b', k1, k2⟩ := orderedInsert_around x g a b hs
    refine ⟨a', b', ?_, ?_⟩
    · show List.orderedInsert _ x (sortSlice clientLess (l1 ++ g :: l2)) = _
      rw [h1, k1]
    · show List.orderedInsert _ x (sortSlice clientLess (l1 ++ l2)) = _
      rw [h2, k2]

theorem prepareClients_around (ig : List Str) (g : client) (l1 l2 : List client) :
    ∃ a b, prepareClients ig (l1 ++ l2) = a ++ b ∧
      (prepareClients ig (l1 ++ g :: l2) = a ++ g :: b ∨
        prepareClients ig (l1 ++ g :: l2) = a ++ b) := by
  obtain ⟨a, b, h1, h2⟩ := sortSlice_around g l2 l1
  refine ⟨deleteFunc (onIgnoredWorkspace ig) a, deleteFunc (onIgnoredWorkspace ig) b, ?_, ?_⟩
  · simp [prepareClients, h2, deleteFunc_eq_filter]
  · by_cases hg : onIgnoredWorkspace ig g = true
    · right
      simp [prepareClients, h1, deleteFunc_eq_filter, hg]
    · left
      simp [prepareClients, h1, deleteFunc_eq_filter, hg]

theorem taskInstances_ghost (a b : List client) (g : client) (hg : g.Class = [])
    (X : Str) (hX : X ≠ []) :
    taskInstances (a ++ g :: b) X = taskInstances (a ++ b) X := by
  have h : (g.Class == X) = false := by
    rw [hg]
    cases X with
    | nil => exact absurd rfl hX
    | cons c s => rfl
  simp [taskInstances, List.filter_append, List.filter_cons, h]

theorem inTasks_ghost (a b : List client) (g : client) (hg : g.Class = [])
    (X : Str) (hX : X ≠ []) :
    inTasks (a ++ g :: b) X = inTasks (a ++ b) X := by
  have h : (g.Class == X) = false := by
    rw [hg]
    cases X with
    | nil => exact absurd rfl hX
    | cons c s => rfl
  simp [inTasks, List.any_append, List.any_cons, h]

theorem pinnedLoop_congr (autohide : Bool) (activeClient : client) (c1 c2 : List client)
    (hT : ∀ X : Str, X ≠ [] → taskInstances c1 X = taskInstances c2 X)
    (hI : ∀ X : Str, X ≠ [] → inTasks c1 X = inTasks c2 X) :
    ∀ (pins alreadyAdded : List Str), (∀ p ∈ pins, p ≠ []) →
      pinnedLoop autohide activeClient c1 pins alreadyAdded
        = pinnedLoop autohide activeClient c2 pins alreadyAdded := by
  intro pins
  induction pins with
  | nil => intro _ _; rfl
  | cons pin rest ih =>
    intro added hp
    have hpin : pin ≠ [] := hp pin (List.mem_cons_self _ _)
    have hrest : ∀ p ∈ rest, p ≠ [] := fun p h => hp p (List.mem_cons_of_mem _ h)
    simp only [pinnedLoop, hT pin hpin, hI pin hpin, ih _ hrest]

theorem tasksLoop_congr (autohide : Bool) (activeClient : client) (pinned : List Str)
    (c1 c2 : List client)
    (hT : ∀ X : Str, X ≠ [] → taskInstances c1 X = taskInstances c2 X) :
    ∀ (l : List client) (alreadyAdded : List Str),
      tasksLoop autohide activeClient pinned c1 l alreadyAdded
        = tasksLoop autohide activeClient pinned c2 l alreadyAdded := by
  intro l
  induction l with
  | nil => intro _; rfl
  | cons t rest ih =>
    intro added
    by_cases ht : t.Class = []
    · simp [tasksLoop, ht, ih]
    · simp only [tasksLoop, hT t.Class ht, ih]

theorem tasksLoop_skip (autohide : Bool) (activeClient : client) (pinned : List Str)
    (clients : List client) (g : client) (hg : g.Class = []) (b : List client) :
    ∀ (a : List client) (alreadyAdded : List Str),
      tasksLoop autohide activeClient pinned clients (a ++ g :: b) alreadyAdded
        = tasksLoop autohide activeClient pinned clients (a ++ b) alreadyAdded := by
  intro a
  induction a with
  | nil => intro added; simp [tasksLoop, hg]
  | cons t rest ih =>
    intro added
    simp only [List.cons_append, tasksLoop, List.append_eq, ih]

theorem allItemsTasks_skip (launcherCmd : Str) (g : client) (hg : g.Class = [])
    (allItems : List Str) (a b : List client) :
    allItemsTasks launcherCmd allItems (a ++ g :: b)
      = allItemsTasks launcherCmd allItems (a ++ b) := by
  simp [allItemsTasks, List.foldl_append, hg]

theorem launcherAt_ident (f : Flags) (g : Globals) (pos : Str) :
    ∀ b ∈ launcherAt f g pos, b.ident = none := by
  intro b hb
  unfold launcherAt at hb
  split_ifs at hb <;> simp at hb
  subst hb
  rfl

/-- With pins that are not empty, no button of the row stands for the empty
identifier. -/
theorem row_ident_ne_nil (f : Flags) (g : Globals) (pins : List Str) (clients : List client)
    (st : Built) (hp : ∀ p ∈ pins, p ≠ [])
    (h : buildMainBox f g (some pins) clients = some st) :
    ∀ b ∈ st.row, b.ident ≠ some [] := by
  obtain ⟨ps, hps, hsome, hsub⟩ := pinnedLoop_spec f.autohide g.activeClient
    (prepareClients g.ignoredWorkspaces clients) pins []
  obtain ⟨rs, _, hrall, hf⟩ := tasksLoop_spec f.autohide g.activeClient pins
    (prepareClients g.ignoredWorkspaces clients) (prepareClients g.ignoredWorkspaces clients) []
  obtain ⟨_, hmem⟩ := forall₂_record (fun b t h => h.1) hf
  have e := Option.some.inj ((buildMainBox_eq f g (some pins) clients ps hps).symm.trans h)
  subst e
  intro b hb hid
  simp only [List.mem_append] at hb
  rcases hb with ((hb | hb) | hb) | hb
  · rw [launcherAt_ident f g _ b hb] at hid
    exact Option.noConfusion hid
  · have : ([] : Str) ∈ rowIdents ps := List.mem_filterMap.2 ⟨b, hb, hid⟩
    exact hp [] (hsub.subset this) rfl
  · obtain ⟨t, ht, _, hid'⟩ := hmem b hb
    rw [hid] at hid'
    exact (hrall t ht).2 (Option.some.inj hid').symm
  · rw [launcherAt_ident f g _ b hb] at hid
    exact Option.noConfusion hid

theorem trimSpace_ne_nil (p : Str) (h : trimSpace p ≠ []) : p ≠ [] := by
  rintro rfl
  exact h rfl

/-- C3: a ghost record (empty class) added anywhere to the registry changes
neither the item count nor the identifiers of the packed buttons, and no
packed button has an empty class, when no pinned identifier is blank. -/
theorem buildMainBox_ghost (f : Flags) (g : Globals) (pins : List Str)
    (l1 l2 : List client) (ghost : client)
    (hp : ∀ p ∈ pins, trimSpace p ≠ []) (hg : ghost.Class = []) :
    ∃ st st', buildMainBox f g (some pins) (l1 ++ l2) = some st ∧
      buildMainBox f g (some pins) (l1 ++ ghost :: l2) = some st' ∧
      st'.allItems.length = st.allItems.length ∧
      rowIdents st'.row = rowIdents st.row ∧
      ∀ b ∈ st'.row, b.ident ≠ some [] := by
  have hp' : ∀ p ∈ pins, p ≠ [] := fun p h => trimSpace_ne_nil p (hp p h)
  obtain ⟨ps, hps, _, _⟩ := pinnedLoop_spec f.autohide g.activeClient
    (prepareClients g.ignoredWorkspaces (l1 ++ l2)) pins []
  have h1 := buildMainBox_eq f g (some pins) (l1 ++ l2) ps hps
  obtain ⟨ps', hps', _, _⟩ := pinnedLoop_spec f.autohide g.activeClient
    (prepareClients g.ignoredWorkspaces (l1 ++ ghost :: l2)) pins []
  have h2 := buildMainBox_eq f g (some pins) (l1 ++ ghost :: l2) ps' hps'
  refine ⟨_, _, h1, h2, ?_, ?_, row_ident_ne_nil f g pins _ _ hp' h2⟩
  all_goals
    obtain ⟨a, b, ha, hb | hb⟩ := prepareClients_around g.ignoredWorkspaces ghost l1 l2
  · simp only [ha, hb, allItemsTasks_skip _ ghost hg]
  · simp only [ha, hb]
  · have e : ps' = ps := by
      rw [hb, pinnedLoop_congr f.autohide g.activeClient (a ++ ghost :: b) (a ++ b)
        (taskInstances_ghost a b ghost hg) (inTasks_ghost a b ghost hg) _ _ hp', ← ha] at hps'
      exact Option.some.inj (hps'.symm.trans hps)
    subst e
    simp only [ha, hb, loadPinned, tasksLoop_skip _ _ _ _ ghost hg,
      tasksLoop_congr f.autohide g.activeClient pins (a ++ ghost :: b) (a ++ b)
        (taskInstances_ghost a b ghost hg)]
  · have e : ps' = ps := by
      rw [hb, ← ha] at hps'
      exact Option.some.inj (hps'.symm.trans hps)
    subst e
    simp only [ha, hb]

/-- C3 (witness): scenario C, the ghost record added to the registry of
scenario A with firefox pinned. -/
theorem buildMainBox_ghost_witness :
    (∀ p ∈ ["firefox".toList], trimSpace p ≠ []) ∧ scenarioGhost.Class = [] ∧
    ∃ st st', buildMainBox defaultFlags defaultGlobals (some ["firefox".toList])
        (scenarioRegistry ++ []) = some st ∧
      buildMainBox defaultFlags defaultGlobals (some ["firefox".toList])
        (scenarioRegistry ++ scenarioGhost :: []) = some st' ∧
      st'.allItems.length = st.allItems.length ∧
      rowIdents st'.row = rowIdents st.row ∧
      ∀ b ∈ st'.row, b.ident ≠ some [] :=
  ⟨by decide, rfl, buildMainBox_ghost defaultFlags defaultGlobals ["firefox".toList]
    scenarioRegistry [] scenarioGhost (by decide) rfl⟩

/-! ## The ignored-workspace step -/

theorem index_colon (s : Str) :
    index s [':'] = if s.all (fun c => c != ':') then none
      else some (s.takeWhile (fun c => c != ':')).length := by
  induction s with
  | nil => simp [index]
  | cons c s ih =>
    by_cases hc : c = ':'
    · subst hc
      simp [index, hasPrefix]
    · have h1 : hasPrefix (c :: s) [':'] = false := by
        simp [hasPrefix, hc]
      have h2 : (c != ':') = true := by simpa using hc
      simp only [index, h1, ih, List.all_cons, h2, Bool.true_and, List.takeWhile_cons,
        if_true, List.length_cons, Bool.false_eq_true, if_false]
      split_ifs <;> simp

theorem cut_colon (s : Str) : (cut s [':']).1 = namePrefix s := by
  unfold cut namePrefix
  rw [index_colon]
  split_ifs with h
  · simp only
    symm
    rw [List.takeWhile_eq_self_iff]
    intro c hc
    exact List.all_eq_true.1 h c hc
  · simp only
    induction s with
    | nil => simp
    | cons c s ih =>
      by_cases hc : c = ':'
      · subst hc
        simp
      · have h2 : (c != ':') = true := by simpa using hc
        have h3 : ¬ (s.all (fun c => c != ':') = true) := by
          simpa [List.all_cons, h2] using h
        simp only [List.takeWhile_cons, h2, if_true, List.length_cons, List.take_succ_cons]
        rw [ih h3]

theorem itoa_eq_decimal (i : Int) : itoa i = decimal i := by
  unfold itoa decimal
  cases i with
  | ofNat n =>
    have : ¬ (Int.ofNat n < 0) := by simp
    simp only [this, if_false]
    rfl
  | negSucc n =>
    have : Int.negSucc n < 0 := Int.negSucc_lt_zero n
    simp only [this, if_true]
    show '-' :: Nat.toDigits 10 (n + 1) = ("-" ++ (Nat.toDigits 10 (n + 1)).asString).toList
    rw [String.toList, String.data_append]
    rfl

/-- C4: the ignored-workspace step keeps, in their order, exactly the records
whose workspace id in decimal and whose workspace-name prefix before the first
`:` are both outside the ignore set; with the registry of scenario A and the
ignore set `["2"]` the kitty record goes and both firefox records stay. -/
theorem ignoredStep_spec (ignored : List Str) (clients : List client) :
    deleteFunc (onIgnoredWorkspace ignored) clients
        = clients.filter (fun c => decide (decimal c.Workspace.Id ∉ ignored)
            && decide (namePrefix c.Workspace.Name ∉ ignored)) ∧
      deleteFunc (onIgnoredWorkspace ["2".toList]) scenarioRegistry
        = [window "1" "firefox" 1, window "2" "firefox" 1] := by
  constructor
  · rw [deleteFunc_eq_filter]
    congr 1
    funext c
    simp [onIgnoredWorkspace, isIn, cut_colon, itoa_eq_decimal]
  · decide

/-- C5: with the `-iw` option at its default the ignore set is `[""]`, and the
ignored-workspace step removes a record whose workspace name is empty. -/
theorem emptyIgnore_removes_record (addr cl : Str) (id : Int) :
    ignoredWorkspacesOf [] = [[]] ∧
      prepareClients (ignoredWorkspacesOf [])
        [{ Address := addr, Class := cl, Workspace := { Id := id, Name := [] } }] = [] := by
  constructor
  · rfl
  · simp [prepareClients, sortSlice, deleteFunc, onIgnoredWorkspace, ignoredWorkspacesOf, split,
      splitLoop, index, isIn, cut]

/-- C6: a running window whose class is the launcher command is left out of
`allItems` and still gets a task button. -/
theorem launcher_class_packed :
    (buildMainBox defaultFlags defaultGlobals (some []) [window "7" "nwg-drawer" 1]).map
        (fun st => (st.allItems, rowIdents st.row))
      = some ([], ["nwg-drawer".toList]) := by
  decide

/-- C10: a chunk with the event name but without the `>>` after it makes
`strings.Split(...)[1]` panic. -/
theorem processChunk_panics (listClientsOk : Bool) (lastWinAddr : Str) :
    processChunk listClientsOk lastWinAddr "activewindowv2".toList = none ∧
      processChunk listClientsOk lastWinAddr
        "activewindow>>kitty,activewindowv2 notes\n".toList = none := by
  constructor <;> rfl

/-! ## Icon scaling -/

theorem wrap64_of_range (x : Int) (h1 : -2 ^ 63 ≤ x) (h2 : x < 2 ^ 63) : wrap64 x = x := by
  unfold wrap64
  omega

theorem divInt_natCast (a b : Nat) (ha : (a : Int) < 2 ^ 63) :
    divInt (a : Int) (b : Int) = ((a / b : Nat) : Int) := by
  unfold divInt
  rw [Int.tdiv_eq_ediv (Int.natCast_nonneg a) (Int.natCast_nonneg b)]
  have h : ((a : Int) / (b : Int)) = ((a / b : Nat) : Int) := by push_cast; rfl
  rw [h]
  apply wrap64_of_range
  · have := Int.natCast_nonneg (a / b)
    omega
  · have : a / b ≤ a := Nat.div_le_self a b
    omega

/-- The scaled icon size in closed form, when `imgSize * 6` does not overflow. -/
theorem scaleIcons_natCast (S n : Nat) (hS : 0 < S) (h6 : S * 6 < 2 ^ 63) (hn : n < 2 ^ 63) :
    scaleIcons (S : Int) n = ((if n ≤ 6 then S else S * 6 / (6 + (n - 6) / 3) : Nat) : Int) := by
  have hm : mulInt (S : Int) 6 = ((S * 6 : Nat) : Int) := by
    unfold mulInt
    rw [wrap64_of_range] <;> push_cast <;> omega
  have h6' : ((S * 6 : Nat) : Int) < 2 ^ 63 := by exact_mod_cast h6
  unfold scaleIcons
  simp only [hm]
  by_cases hn6 : n ≤ 6
  · have hd : (if n > 0 then (n : Int) else 1) = (((if n > 0 then n else 1 : Nat)) : Int) := by
      split_ifs <;> simp
    rw [hd, divInt_natCast _ _ h6']
    have hge : S ≤ S * 6 / (if n > 0 then n else 1) := by
      rw [Nat.le_div_iff_mul_le (by split_ifs <;> omega)]
      split_ifs
      · exact Nat.mul_le_mul_left S hn6
      · omega
    have : ¬ (((S * 6 / (if n > 0 then n else 1) : Nat) : Int) < (S : Int)) := by
      exact_mod_cast Nat.not_lt.2 hge
    rw [if_neg this, if_pos hn6]
  · have hpos : n > 0 := by omega
    simp only [hpos, if_true, hn6, if_false]
    rw [divInt_natCast _ _ h6']
    have hlt : S * 6 / n < S := by
      rw [Nat.div_lt_iff_lt_mul (by omega)]
      exact Nat.mul_lt_mul_of_pos_left (by omega) hS
    have : (((S * 6 / n : Nat) : Int) < (S : Int)) := by exact_mod_cast hlt
    simp only [this, if_true]
    have ho : divInt ((n : Int) - 6) 3 = (((n - 6) / 3 : Nat) : Int) := by
      have e : ((n : Int) - 6) = ((n - 6 : Nat) : Int) := by omega
      rw [e]
      have := divInt_natCast (n - 6) 3 (by omega)
      simpa using this
    rw [ho]
    have e2 : (6 : Int) + (((n - 6) / 3 : Nat) : Int) = ((6 + (n - 6) / 3 : Nat) : Int) := by
      push_cast; rfl
    rw [e2, divInt_natCast _ _ h6']

/-- C7 (as stated): for the icon size `2 ^ 62` the product `imgSize * 6` wraps
around and one item already gets a scaled size different from the base size. -/
theorem scaleIcons_wraps :
    (0 : Int) < 2 ^ 62 ∧ (2 : Int) ^ 62 < 2 ^ 63 ∧ (1 : Nat) ≤ 6 ∧
      scaleIcons (2 ^ 62) 1 = -1844674407370955161 ∧ scaleIcons (2 ^ 62) 1 ≠ 2 ^ 62 := by
  decide

/-- C7 (amended): for a positive base icon size whose product with 6 fits an
`int`, the scaled size is non-increasing in the item count and equals the base
size for at most 6 items. -/
theorem scaleIcons_mono (imgSize : Int) (h0 : 0 < imgSize) (h6 : imgSize * 6 < 2 ^ 63) :
    (∀ m n : Nat, m ≤ n → (n : Int) < 2 ^ 63 →
        scaleIcons imgSize n ≤ scaleIcons imgSize m) ∧
      ∀ n : Nat, n ≤ 6 → scaleIcons imgSize n = imgSize := by
  lift imgSize to ℕ using h0.le with S
  have hS : 0 < S := by exact_mod_cast h0
  have h6' : S * 6 < 2 ^ 63 := by exact_mod_cast h6
  constructor
  · intro m n hmn hn
    have hn' : n < 2 ^ 63 := by exact_mod_cast hn
    rw [scaleIcons_natCast S n hS h6' hn', scaleIcons_natCast S m hS h6' (by omega)]
    apply Int.ofNat_le.2
    by_cases hn6 : n ≤ 6
    · have hm6 : m ≤ 6 := by omega
      simp [hn6, hm6]
    · by_cases hm6 : m ≤ 6
      · simp only [hn6, hm6, if_true, if_false]
        apply Nat.div_le_of_le_mul
        rw [Nat.mul_comm S 6]
        exact Nat.mul_le_mul_right S (Nat.le_add_right 6 _)
      · simp only [hn6, hm6, if_false]
        apply Nat.div_le_div_left
        · omega
        · omega
  · intro n hn
    rw [scaleIcons_natCast S n hS h6' (by omega)]
    simp [hn]

/-- C7 (witness): the default icon size 48. -/
theorem scaleIcons_mono_witness :
    (0 : Int) < 48 ∧ (48 : Int) * 6 < 2 ^ 63 ∧
      ((∀ m n : Nat, m ≤ n → (n : Int) < 2 ^ 63 → scaleIcons 48 n ≤ scaleIcons 48 m) ∧
        ∀ n : Nat, n ≤ 6 → scaleIcons 48 n = 48) :=
  ⟨by decide, by decide, scaleIcons_mono 48 (by decide) (by decide)⟩

/-! ## Rebuilding twice -/

/-- C8: a second run of `buildMainBox` on the client list the first run left
behind, with the same flags, globals and pin file, ends in the same client
list, `allItems`, scaled icon size and row of buttons. -/
theorem buildMainBox_idem (f : Flags) (g : Globals) (loaded : Option (List Str))
    (clients : List client) :
    ∃ st, buildMainBox f g loaded clients = some st ∧
      buildMainBox f g loaded st.clients = some st ∧
      st.clients = prepareClients g.ignoredWorkspaces clients := by
  obtain ⟨ps, hps, _, _⟩ := pinnedLoop_spec f.autohide g.activeClient
    (prepareClients g.ignoredWorkspaces clients) (loadPinned loaded) []
  have h1 := buildMainBox_eq f g loaded clients ps hps
  have hps2 : pinnedLoop f.autohide g.activeClient
      (prepareClients g.ignoredWorkspaces (prepareClients g.ignoredWorkspaces clients))
      (loadPinned loaded) [] = some ps := by
    rw [prepareClients_idem]
    exact hps
  have h2 := buildMainBox_eq f g loaded (prepareClients g.ignoredWorkspaces clients) ps hps2
  rw [prepareClients_idem] at h2
  exact ⟨_, h1, h2, rfl⟩

/-! ## The event listener -/

theorem hasPrefix_length : ∀ (s p : Str), hasPrefix s p = true → p.length ≤ s.length
  | _, [], _ => by simp
  | [], _ :: _, h => by simp [hasPrefix] at h
  | c :: s, d :: p, h => by
    simp only [hasPrefix, Bool.and_eq_true] at h
    have := hasPrefix_length s p h.2
    simp only [List.length_cons]
    omega

theorem hasPrefix_iff : ∀ (s p : Str), hasPrefix s p = true ↔ ∃ t, s = p ++ t
  | s, [] => by simp [hasPrefix]
  | [], d :: p => by simp [hasPrefix]
  | c :: s, d :: p => by
    simp only [hasPrefix, Bool.and_eq_true, beq_iff_eq, hasPrefix_iff s p, List.cons_append,
      List.cons.injEq]
    constructor
    · rintro ⟨rfl, t, rfl⟩
      exact ⟨t, rfl, rfl⟩
    · rintro ⟨t, rfl, rfl⟩
      exact ⟨rfl, t, rfl⟩

theorem hasPrefix_append_left (s p q : Str) (h : hasPrefix s (p ++ q) = true) :
    hasPrefix s p = true := by
  obtain ⟨t, rfl⟩ := (hasPrefix_iff s (p ++ q)).1 h
  exact (hasPrefix_iff _ p).2 ⟨q ++ t, by simp⟩

/-- The position `strings.Index` returns is the first one at which `sep`
occurs. -/
theorem index_some : ∀ (s sep : Str) (i : Nat), index s sep = some i →
    hasPrefix (s.drop i) sep = true ∧ (∀ j < i, hasPrefix (s.drop j) sep = false) ∧
      i + sep.length ≤ s.length
  | [], sep, i, h => by
    by_cases hs : sep = []
    · subst hs
      simp only [index, if_true, Option.some.injEq] at h
      subst h
      simp [hasPrefix]
    · simp [index, hs] at h
  | c :: s, sep, i, h => by
    by_cases hp : hasPrefix (c :: s) sep = true
    · simp only [index, hp, if_true, Option.some.injEq] at h
      subst h
      refine ⟨by simpa using hp, by simp, ?_⟩
      have := hasPrefix_length _ _ hp
      omega
    · simp only [index, hp, Bool.false_eq_true, if_false, Option.map_eq_some'] at h
      obtain ⟨k, hk, rfl⟩ := h
      obtain ⟨h1, h2, h3⟩ := index_some s sep k hk
      refine ⟨by simpa using h1, ?_, by simp only [List.length_cons]; omega⟩
      intro j hj
      cases j with
      | zero => simpa using hp
      | succ j => simpa using h2 j (by omega)

/-- When `strings.Index` returns `-1`, `sep` occurs nowhere in `s`. -/
theorem index_none : ∀ (s sep : Str), index s sep = none →
    ∀ j ≤ s.length, hasPrefix (s.drop j) sep = false
  | [], sep, h => by
    intro j hj
    by_cases hs : sep = []
    · simp [index, hs] at h
    · cases sep with
      | nil => exact absurd rfl hs
      | cons d p => simp [hasPrefix]
  | c :: s, sep, h => by
    by_cases hp : hasPrefix (c :: s) sep = true
    · simp [index, hp] at h
    · simp only [index, hp, Bool.false_eq_true, if_false, Option.map_eq_none'] at h
      intro j hj
      cases j with
      | zero => simpa using hp
      | succ j =>
        simp only [List.length_cons] at hj
        simpa using index_none s sep h j (by omega)

theorem contains_of_contains_append (s p q : Str) (h : contains s (p ++ q) = true) :
    contains s p = true := by
  unfold contains at *
  cases hi : index s p with
  | some i => rfl
  | none =>
    obtain ⟨i, hi2⟩ := Option.isSome_iff_exists.1 h
    obtain ⟨h1, _, h3⟩ := index_some s (p ++ q) i hi2
    have := index_none s p hi i (by omega)
    rw [hasPrefix_append_left _ p q h1] at this
    exact Bool.noConfusion this

theorem split_second (s sep : Str) (i : Nat) (hi : index s sep = some i)
    (hsep : 2 ≤ sep.length) :
    (split s sep)[1]? = some (upToNext sep (afterFirst sep s)) := by
  obtain ⟨_, _, hlen⟩ := index_some s sep i hi
  unfold split afterFirst
  obtain ⟨n, hn⟩ : ∃ n, s.length = n + 2 := ⟨s.length - 2, by omega⟩
  rw [hn]
  simp only [splitLoop, hi]
  unfold upToNext
  cases index (List.drop (i + sep.length) s) sep <;> simp

/-- C9: on a chunk that contains the marker `activewindowv2>>` the listener
calls `listClients()` and, when that succeeds, `refreshMainBox(true)` and then
stores the extracted address, exactly when the extracted address differs from
the last-seen one and contains no `>>` (a failing `listClients()` ends the
process instead); otherwise it calls nothing and keeps the last-seen address,
as it does on a chunk without `activewindowv2`. -/
theorem processChunk_spec (listClientsOk : Bool) (lastWinAddr s t : Str)
    (hs : contains s eventMarker = true) (ht : contains t eventName = false) :
    processChunk listClientsOk lastWinAddr s =
        (if extractedAddr s ≠ lastWinAddr ∧ contains (extractedAddr s) delimiter = false then
          (if listClientsOk then
            some ([Effect.listClients, Effect.refreshMainBox true], extractedAddr s)
          else some ([Effect.listClients, Effect.fatal], lastWinAddr))
        else some ([], lastWinAddr)) ∧
      processChunk listClientsOk lastWinAddr t = some ([], lastWinAddr) := by
  constructor
  · have hname : contains s eventName = true :=
      contains_of_contains_append s eventName delimiter hs
    obtain ⟨i, hi⟩ := Option.isSome_iff_exists.1 hs
    have h2 := split_second s eventMarker i hi (by decide)
    unfold processChunk
    simp only [hname, if_true, h2]
    have e : trimSpace (upToNext eventMarker (afterFirst eventMarker s)) = extractedAddr s := rfl
    rw [e]
    by_cases h1 : extractedAddr s = lastWinAddr
    · simp [h1]
    · by_cases h3 : contains (extractedAddr s) delimiter = true
      · simp [h1, h3]
      · simp [h1, h3]
  · unfold processChunk
    simp [ht]

/-- C9 (witness): a focus event for a new address, and a workspace event. -/
theorem processChunk_spec_witness :
    contains "activewindowv2>>55d5c8a3b2f0\n".toList eventMarker = true ∧
      contains "workspace>>2\n".toList eventName = false ∧
      processChunk true [] "activewindowv2>>55d5c8a3b2f0\n".toList =
        (if extractedAddr "activewindowv2>>55d5c8a3b2f0\n".toList ≠ [] ∧
            contains (extractedAddr "activewindowv2>>55d5c8a3b2f0\n".toList) delimiter = false then
          (if true = true then
            some ([Effect.listClients, Effect.refreshMainBox true],
              extractedAddr "activewindowv2>>55d5c8a3b2f0\n".toList)
          else some ([Effect.listClients, Effect.fatal], []))
        else some ([], [])) ∧
      processChunk true [] "workspace>>2\n".toList = some ([], []) :=
  ⟨by decide, by decide,
    processChunk_spec true [] "activewindowv2>>55d5c8a3b2f0\n".toList "workspace>>2\n".toList
      (by decide) (by decide)⟩

/-- A focus event for a new address triggers the refresh and stores the
address without the line end. -/
theorem processChunk_focus_event :
    processChunk true [] "activewindowv2>>55d5c8a3b2f0\n".toList
      = some ([Effect.listClients, Effect.refreshMainBox true], "55d5c8a3b2f0".toList) := by
  decide

/-! ## Further facts about the model -/

/-- The bound on the number of cuts in `split` is never reached: more cuts
allowed give the same result. -/
theorem splitLoop_succ (sep : Str) (hsep : sep ≠ []) :
    ∀ (n : Nat) (s : Str), s.length ≤ n → splitLoop sep (n + 1) s = splitLoop sep n s := by
  have hlen : 1 ≤ sep.length := by
    cases sep with
    | nil => exact absurd rfl hsep
    | cons c p => simp
  intro n
  induction n with
  | zero =>
    intro s hs
    have : s = [] := List.length_eq_zero.1 (by omega)
    subst this
    simp [splitLoop, index, hsep]
  | succ n ih =>
    intro s hs
    cases hi : index s sep with
    | none => simp [splitLoop, hi]
    | some m =>
      have h := ih (s.drop (m + sep.length)) (by simp only [List.length_drop]; omega)
      rw [splitLoop, hi]
      simp only
      rw [h]
      conv_rhs => rw [splitLoop, hi]

theorem tasksLoop_nodup (autohide : Bool) (activeClient : client) (pinned : List Str)
    (clients : List client) :
    ∀ (rest : List client) (alreadyAdded : List Str),
      (∀ X, (taskInstances rest X).length ≤ (taskInstances clients X).length) →
      (rowIdents (tasksLoop autohide activeClient pinned clients rest alreadyAdded)).Nodup ∧
        ∀ X ∈ rowIdents (tasksLoop autohide activeClient pinned clients rest alreadyAdded),
          taskInstances rest X ≠ [] ∧
            ((taskInstances clients X).length ≠ 1 → X ∉ alreadyAdded) := by
  intro rest
  induction rest with
  | nil => intro _ _; simp [tasksLoop, rowIdents]
  | cons t rest ih =>
    intro added hcount
    have hstep : ∀ X, (taskInstances (t :: rest) X).length
        = (taskInstances rest X).length + (if t.Class = X then 1 else 0) := by
      intro X
      unfold taskInstances
      by_cases h : t.Class = X <;> simp [List.filter_cons, h]
    have hrest : ∀ X, (taskInstances rest X).length ≤ (taskInstances clients X).length := by
      intro X
      have := hcount X
      rw [hstep X] at this
      omega
    have hne : ∀ X, taskInstances rest X ≠ [] → taskInstances (t :: rest) X ≠ [] := by
      intro X h1 h2
      have := hstep X
      rw [h2] at this
      have h3 : 0 < (taskInstances rest X).length := List.length_pos.2 h1
      simp only [List.length_nil] at this
      omega
    have hself : taskInstances (t :: rest) t.Class ≠ [] := by
      simp [taskInstances, List.filter_cons]
    by_cases hc : (!inPinned pinned t.Class && t.Class != []) = true
    · by_cases h1 : (taskInstances clients t.Class).length = 1
      · obtain ⟨hnd, hall⟩ := ih added hrest
        have e : rowIdents (tasksLoop autohide activeClient pinned clients (t :: rest) added)
            = t.Class :: rowIdents (tasksLoop autohide activeClient pinned clients rest added) := by
          simp [tasksLoop, hc, h1, rowIdents, List.filterMap_cons, Button.ident]
        rw [e]
        constructor
        · refine List.nodup_cons.2 ⟨?_, hnd⟩
          intro hmem
          have h2 := (hall _ hmem).1
          have h3 : 0 < (taskInstances rest t.Class).length := List.length_pos.2 h2
          have h4 := hcount t.Class
          rw [hstep t.Class] at h4
          simp only [if_true] at h4
          omega
        · intro X hX
          rcases List.mem_cons.1 hX with rfl | hX
          · exact ⟨hself, fun h => absurd h1 h⟩
          · exact ⟨hne X (hall X hX).1, (hall X hX).2⟩
      · by_cases h2 : isIn added t.Class = true
        · obtain ⟨hnd, hall⟩ := ih added hrest
          have e : tasksLoop autohide activeClient pinned clients (t :: rest) added
              = tasksLoop autohide activeClient pinned clients rest added := by
            simp [tasksLoop, hc, h1, h2]
          rw [e]
          exact ⟨hnd, fun X hX => ⟨hne X (hall X hX).1, (hall X hX).2⟩⟩
        · obtain ⟨hnd, hall⟩ := ih (added ++ [t.Class]) hrest
          have h2f : isIn added t.Class = false := by simpa using h2
          have e : rowIdents (tasksLoop autohide activeClient pinned clients (t :: rest) added)
              = t.Class :: rowIdents (tasksLoop autohide activeClient pinned clients rest
                  (added ++ [t.Class])) := by
            simp [tasksLoop, hc, h1, h2f, rowIdents, List.filterMap_cons, Button.ident]
          rw [e]
          constructor
          · refine List.nodup_cons.2 ⟨?_, hnd⟩
            intro hmem
            exact (hall _ hmem).2 h1 (by simp)
          · intro X hX
            rcases List.mem_cons.1 hX with rfl | hX
            · refine ⟨hself, fun _ => ?_⟩
              simpa [isIn] using h2f
            · refine ⟨hne X (hall X hX).1, fun h => ?_⟩
              have := (hall X hX).2 h
              intro hm
              exact this (List.mem_append_left _ hm)
    · obtain ⟨hnd, hall⟩ := ih added hrest
      have hc' : (!inPinned pinned t.Class && t.Class != []) = false := by simpa using hc
      have e : tasksLoop autohide activeClient pinned clients (t :: rest) added
          = tasksLoop autohide activeClient pinned clients rest added := by
        simp only [tasksLoop, hc', Bool.false_eq_true, if_false]
      rw [e]
      exact ⟨hnd, fun X hX => ⟨hne X (hall X hX).1, (hall X hX).2⟩⟩

/-- With a pin file that lists no identifier twice, no identifier appears
twice among the buttons of the row. -/
theorem buildMainBox_nodup (f : Flags) (g : Globals) (pins : List Str) (clients : List client)
    (hpins : pins.Nodup) :
    ∃ st, buildMainBox f g (some pins) clients = some st ∧ (rowIdents st.row).Nodup := by
  obtain ⟨ps, hps, _, hsub⟩ := pinnedLoop_spec f.autohide g.activeClient
    (prepareClients g.ignoredWorkspaces clients) pins []
  obtain ⟨rs, _, hrall, hf⟩ := tasksLoop_spec f.autohide g.activeClient pins
    (prepareClients g.ignoredWorkspaces clients) (prepareClients g.ignoredWorkspaces clients) []
  obtain ⟨_, hmem⟩ := forall₂_record (fun b t h => h.1) hf
  obtain ⟨hnd, _⟩ := tasksLoop_nodup f.autohide g.activeClient pins
    (prepareClients g.ignoredWorkspaces clients) (prepareClients g.ignoredWorkspaces clients) []
    (fun _ => le_refl _)
  refine ⟨_, buildMainBox_eq f g (some pins) clients ps hps, ?_⟩
  show (rowIdents (launcherAt f g _ ++ ps ++ tasksLoop f.autohide g.activeClient pins
    (prepareClients g.ignoredWorkspaces clients) (prepareClients g.ignoredWorkspaces clients) []
    ++ launcherAt f g _)).Nodup
  rw [rowIdents_row]
  refine List.nodup_append.2 ⟨hsub.nodup hpins, hnd, ?_⟩
  intro X hX1 hX2
  obtain ⟨b, hb, hid⟩ := List.mem_filterMap.1 hX2
  obtain ⟨t, ht, _, hid'⟩ := hmem b hb
  rw [hid] at hid'
  have hXt : X = t.Class := Option.some.inj hid'
  have := (hrall t ht).1
  rw [← hXt] at this
  have hin : X ∈ pins := hsub.subset hX1
  simp [inPinned, hin] at this

theorem toDigitsCore_ne_nil (b : Nat) : ∀ (fuel n : Nat) (ds : List Char),
    ds ≠ [] ∨ 0 < fuel → Nat.toDigitsCore b fuel n ds ≠ []
  | 0, n, ds, h => by
    rcases h with h | h
    · simpa [Nat.toDigitsCore] using h
    · omega
  | fuel + 1, n, ds, _ => by
    rw [Nat.toDigitsCore]
    split_ifs
    · simp
    · exact toDigitsCore_ne_nil b fuel _ _ (Or.inl (by simp))

theorem itoa_ne_nil (i : Int) : itoa i ≠ [] := by
  unfold itoa
  split_ifs
  · simp
  · exact toDigitsCore_ne_nil 10 _ _ _ (Or.inr (by omega))

/-- With the `-iw` option at its default the ignored-workspace step removes
exactly the records whose workspace-name prefix before the first `:` is
empty. -/
theorem emptyIgnore_spec (clients : List client) :
    deleteFunc (onIgnoredWorkspace (ignoredWorkspacesOf [])) clients
      = clients.filter (fun c => namePrefix c.Workspace.Name != []) := by
  rw [deleteFunc_eq_filter]
  congr 1
  funext c
  have h1 : ignoredWorkspacesOf [] = [[]] := rfl
  have h2 := itoa_ne_nil c.Workspace.Id
  simp only [onIgnoredWorkspace, isIn, cut_colon, h1, List.contains_cons, List.contains_nil,
    Bool.or_false, beq_eq_false_iff_ne.2 h2, Bool.false_or]
  cases namePrefix c.Workspace.Name <;> rfl

/-- The sort only reorders the client list. -/
theorem sortSlice_perm (l : List client) : List.Perm (sortSlice clientLess l) l :=
  List.perm_insertionSort _ l

/-! ## The reader goroutine -/

/-- A failed read is handled like a successful read of the same bytes, apart
from the message printed. -/
theorem readerIteration_failed (data : Str) (listClientsOk : Bool) (lastWinAddr : Str) :
    (readerIteration { data := data, failed := true } listClientsOk lastWinAddr).effects
        = (readerIteration { data := data, failed := false } listClientsOk lastWinAddr).effects ∧
      (readerIteration { data := data, failed := true } listClientsOk lastWinAddr).next
        = (readerIteration { data := data, failed := false } listClientsOk lastWinAddr).next := by
  unfold readerIteration
  cases processChunk listClientsOk lastWinAddr data with
  | none => exact ⟨rfl, rfl⟩
  | some p => exact ⟨rfl, rfl⟩

/-- C11: a failed connect ends the process, but after a failed read that
returned no bytes the reader prints the error, processes the empty buffer and
stays in its loop. -/
theorem reader_goes_on_after_read_error (listClientsOk : Bool) (lastWinAddr : Str) :
    readerConnect false lastWinAddr = Reader.exited ∧
      readerIteration { data := [], failed := true } listClientsOk lastWinAddr
        = { printed := true, effects := [], next := Reader.reading lastWinAddr } ∧
      (readerIteration { data := [], failed := true } listClientsOk lastWinAddr).next
        ≠ Reader.exited := by
  refine ⟨rfl, rfl, ?_⟩
  intro h
  exact Reader.noConfusion h

/-! ## The hide timer -/

/-- C12: after two pointer-leave events two hide timers are outstanding. A
pointer-enter after them removes only the second, and the first then fires and
hides the window; if the first fires before the pointer-enter, `src` is
already 0 and the pointer-enter removes nothing. -/
theorem hideTimers_two_pending :
    (winRun true HideTimers.init [WinEvent.leave, WinEvent.leave]).pending = [1, 2] ∧
      ¬ (winRun true HideTimers.init [WinEvent.leave, WinEvent.leave]).pending.length ≤ 1 ∧
      (winRun true HideTimers.init [WinEvent.leave, WinEvent.leave, WinEvent.enter]).pending
        = [1] ∧
      (winRun true HideTimers.init
        [WinEvent.leave, WinEvent.leave, WinEvent.enter, WinEvent.fire 1]).visible = false ∧
      (winRun true HideTimers.init
        [WinEvent.leave, WinEvent.leave, WinEvent.fire 1, WinEvent.enter]).pending = [2] ∧
      (winRun true HideTimers.init
        [WinEvent.leave, WinEvent.leave, WinEvent.fire 1, WinEvent.enter]).src = 0 := by
  decide

/-- The invariant of the handlers while leave and enter alternate: no timer is
pending, or a leave has occurred since the last enter and the one pending
timer is the one whose handle is in `src`. -/
theorem winRun_pending (autohide : Bool) :
    ∀ (events : List WinEvent) (left : Bool) (s : HideTimers),
      0 < s.nextId →
      (s.pending = [] ∨ (left = true ∧ s.pending = [s.src] ∧ 0 < s.src)) →
      leavesAlternate left events = true →
      (winRun autohide s events).pending.length ≤ 1 := by
  intro events
  induction events with
  | nil =>
    intro left s _ hinv _
    rcases hinv with h | ⟨_, h, _⟩ <;> simp [winRun, h]
  | cons e events ih =>
    intro left s hn hinv halt
    have hrun : winRun autohide s (e :: events) = winRun autohide (winStep autohide s e) events :=
      rfl
    rw [hrun]
    cases e with
    | leave =>
      simp only [leavesAlternate, Bool.and_eq_true, Bool.not_eq_true'] at halt
      obtain ⟨hleft, halt⟩ := halt
      have hp : s.pending = [] := by
        rcases hinv with h | ⟨h, _, _⟩
        · exact h
        · rw [hleft] at h
          exact Bool.noConfusion h
      cases autohide with
      | false => exact ih true s hn (Or.inl hp) halt
      | true =>
        refine ih true _ ?_ (Or.inr ⟨rfl, ?_, ?_⟩) halt
        · simp [winStep]
        · simp [winStep, hp]
        · simpa [winStep] using hn
    | enter =>
      simp only [leavesAlternate] at halt
      refine ih false _ ?_ (Or.inl ?_) halt
      · unfold winStep cancelClose
        split_ifs <;> exact hn
      · unfold winStep cancelClose
        rcases hinv with h | ⟨_, h, hs⟩
        · split_ifs <;> simp [h]
        · simp [hs, h]
    | fire id =>
      simp only [leavesAlternate] at halt
      rcases hinv with h | ⟨hl, h, hs⟩
      · refine ih left _ ?_ (Or.inl ?_) halt
        · simpa [winStep, h] using hn
        · simp [winStep, h]
      · by_cases hid : id = s.src
        · refine ih left _ ?_ (Or.inl ?_) halt
          · simpa [winStep, h, hid] using hn
          · simp [winStep, h, hid]
        · have hnot : id ∉ s.pending := by simp [h, hid]
          have hstep : winStep autohide s (WinEvent.fire id) = s := by
            simp [winStep, hnot]
          rw [hstep]
          exact ih left s hn (Or.inr ⟨hl, h, hs⟩) halt

/-- Whatever the mode, in every state reached from the initial state by
pointer-leave, pointer-enter and timer-fire events in which leave and enter
alternate, at most one timer scheduled by the leave handler is pending. -/
theorem hideTimers_at_most_one (autohide : Bool) (events : List WinEvent)
    (h : leavesAlternate false events = true) :
    (winRun autohide HideTimers.init events).pending.length ≤ 1 :=
  winRun_pending autohide events false HideTimers.init (by decide) (Or.inl rfl) h

/-- An alternating sequence: leave, enter, leave, the second timer fires,
enter. -/
theorem hideTimers_at_most_one_witness :
    leavesAlternate false [WinEvent.leave, WinEvent.enter, WinEvent.leave, WinEvent.fire 2,
        WinEvent.enter] = true ∧
      (winRun true HideTimers.init [WinEvent.leave, WinEvent.enter, WinEvent.leave,
        WinEvent.fire 2, WinEvent.enter]).pending.length ≤ 1 :=
  ⟨by decide, hideTimers_at_most_one true _ (by decide)⟩

end NwgDock
